import Mathlib

/-!
Shallow embedding of the pngme chunk codec (src/chunk_type.rs, src/chunk.rs)
and of the chunk container described by the specification.

Bytes are modelled as natural numbers; a list standing for a byte slice is
accompanied, where a property depends on it, by the hypothesis that every
entry is below 256.  u32 arithmetic is modelled on Nat with explicit
truncation (% 2 ^ 32) at the points where the Rust code casts.
-/

set_option maxRecDepth 100000

namespace Pngme

/-! ### u32 byte conversions (u32::to_be_bytes, from_be_bytes, from_le_bytes) -/

/-- Big-endian byte decomposition of a 32-bit word, as `u32::to_be_bytes`
produces it (for an argument below 2 ^ 32 the four entries are its base-256
digits, most significant first). -/
def u32ToBeBytes (n : Nat) : List Nat :=
  [n / 2 ^ 24 % 256, n / 2 ^ 16 % 256, n / 2 ^ 8 % 256, n % 256]

/-- Big-endian recomposition of four bytes, as `u32::from_be_bytes`. -/
def u32FromBeBytes : List Nat → Nat
  | [a, b, c, d] => ((a * 256 + b) * 256 + c) * 256 + d
  | _ => 0

/-- Little-endian recomposition of four bytes, as `u32::from_le_bytes`. -/
def u32FromLeBytes : List Nat → Nat
  | [a, b, c, d] => ((d * 256 + c) * 256 + b) * 256 + a
  | _ => 0

/-! ### CRC-32 (ISO-HDLC), as the crc crate computes it

The `crc` crate's `CRC_32_ISO_HDLC` algorithm (poly 0x04C11DB7, init
0xFFFFFFFF, reflected input and output, xorout 0xFFFFFFFF) is, in its
standard reflected formulation: start from 0xFFFFFFFF, for each byte xor it
into the register and perform eight shift-right steps with conditional xor
of the reflected polynomial 0xEDB88320, and finally xor with 0xFFFFFFFF. -/

/-- One bit step of the reflected CRC-32 update. -/
def crc32BitStep (c : Nat) : Nat :=
  if c % 2 = 1 then c / 2 ^^^ 0xEDB88320 else c / 2

/-- One byte step of the reflected CRC-32 update. -/
def crc32ByteStep (c b : Nat) : Nat :=
  (List.range 8).foldl (fun a _ => crc32BitStep a) (c ^^^ b)

/-- CRC-32/ISO-HDLC of a byte sequence (`Crc::<u32>::new(&CRC_32_ISO_HDLC).checksum`). -/
def crc32 (l : List Nat) : Nat :=
  (l.foldl crc32ByteStep 0xFFFFFFFF) ^^^ 0xFFFFFFFF

/-! ### ChunkType (src/chunk_type.rs) -/

/-- Test for an ASCII uppercase letter byte (`u8::is_ascii_uppercase`). -/
def isAsciiUpper (b : Nat) : Bool := 65 ≤ b && b ≤ 90

/-- Test for an ASCII lowercase letter byte (`u8::is_ascii_lowercase`). -/
def isAsciiLower (b : Nat) : Bool := 97 ≤ b && b ≤ 122

/-- Test for an ASCII letter byte, as the closure in
`TryFrom<[u8; 4]> for ChunkType` checks each byte. -/
def isAsciiLetter (b : Nat) : Bool := isAsciiLower b || isAsciiUpper b

/-- The `ChunkType` newtype over `[u8; 4]`; the four array entries are the
four fields. -/
structure ChunkType where
  b0 : Nat
  b1 : Nat
  b2 : Nat
  b3 : Nat
deriving DecidableEq

/-- The `bytes` accessor of `ChunkType`, returning the raw 4-byte array. -/
def ChunkType.bytes (t : ChunkType) : List Nat := [t.b0, t.b1, t.b2, t.b3]

/-- The `is_critical` accessor: first byte uppercase. -/
def ChunkType.is_critical (t : ChunkType) : Bool := isAsciiUpper t.b0

/-- The `is_public` accessor: second byte uppercase. -/
def ChunkType.is_public (t : ChunkType) : Bool := isAsciiUpper t.b1

/-- The `is_reserved_bit_valid` accessor: third byte uppercase. -/
def ChunkType.is_reserved_bit_valid (t : ChunkType) : Bool := isAsciiUpper t.b2

/-- The `is_safe_to_copy` accessor: fourth byte lowercase. -/
def ChunkType.is_safe_to_copy (t : ChunkType) : Bool := isAsciiLower t.b3

/-- The `is_valid` accessor, which the code defines as
`self.is_reserved_bit_valid()`. -/
def ChunkType.is_valid (t : ChunkType) : Bool := t.is_reserved_bit_valid

/-- The `TryFrom<[u8; 4]> for ChunkType` conversion: succeeds exactly when
all four bytes are ASCII letters.  The error payload (a lossily decoded
string) carries no information the claims use, so failure is `none`. -/
def ChunkType.tryFrom4 (a b c d : Nat) : Option ChunkType :=
  if isAsciiLetter a && isAsciiLetter b && isAsciiLetter c && isAsciiLetter d then
    some ⟨a, b, c, d⟩
  else
    none

/-- The `TryFrom<Vec<u8>> for ChunkType` conversion: `try_into` a 4-byte
array (failing on any other length), then the array conversion. -/
def ChunkType.tryFromVec : List Nat → Option ChunkType
  | [a, b, c, d] => ChunkType.tryFrom4 a b c d
  | _ => none

/-- The `FromStr for ChunkType` conversion: collect the UTF-8 bytes of the
string (`s.bytes()`), then the `Vec<u8>` conversion. -/
def ChunkType.fromStr (s : String) : Option ChunkType :=
  ChunkType.tryFromVec (s.toUTF8.toList.map UInt8.toNat)

/-! ### Chunk (src/chunk.rs) -/

/-- The `Chunk` struct: a chunk type, a payload byte vector, and the stored
32-bit checksum field. -/
structure Chunk where
  chunk_type : ChunkType
  data : List Nat
  crc : Nat
deriving DecidableEq

/-- `Chunk::crc_checksum`: CRC-32/ISO-HDLC of the type-code bytes followed
by the payload bytes. -/
def Chunk.crc_checksum (t : ChunkType) (data : List Nat) : Nat :=
  crc32 (t.bytes ++ data)

/-- The `Chunk::new` constructor: stores the computed checksum. -/
def Chunk.new (t : ChunkType) (data : List Nat) : Chunk :=
  { chunk_type := t, data := data, crc := Chunk.crc_checksum t data }

/-- The `Chunk::length` accessor. -/
def Chunk.length (c : Chunk) : Nat := c.data.length

/-- `Chunk::as_bytes`: big-endian 4-byte length (`data.len() as u32`, hence
truncated mod 2 ^ 32), the 4 type-code bytes, the payload, and the
big-endian 4-byte stored checksum. -/
def Chunk.as_bytes (c : Chunk) : List Nat :=
  u32ToBeBytes (c.data.length % 2 ^ 32) ++ c.chunk_type.bytes ++ c.data ++ u32ToBeBytes c.crc

/-- The `TryFrom<&[u8]> for Chunk` conversion, translated step by step:
fewer than 12 bytes fail; the declared length is `from_be_bytes` of bytes
0..4; the type code is validated from bytes 4..8; the payload is
`iter().skip(8).take(length)`; the checksum field is `from_le_bytes` of the
first four bytes of the reversed slice (`iter().rev().take(4)`); the result
is `Chunk::new` when the payload length equals the declared length and the
recomputed checksum equals the field, and failure otherwise. -/
def Chunk.tryFrom (bytes : List Nat) : Option Chunk :=
  if bytes.length < 12 then
    none
  else
    let length := u32FromBeBytes (bytes.take 4)
    match ChunkType.tryFromVec ((bytes.drop 4).take 4) with
    | none => none
    | some chunk_type =>
      let data := (bytes.drop 8).take length
      let crc := u32FromLeBytes (bytes.reverse.take 4)
      let computed_crc := Chunk.crc_checksum chunk_type data
      if data.length = length ∧ computed_crc = crc then
        some (Chunk.new chunk_type data)
      else
        none

/-- The chunk parser exactly as §4.2 of the specification words it: fail on
fewer than 12 bytes; read a big-endian declared length and a validated type
code; take exactly `length` payload bytes from offset 8; read the checksum
field as the 4 bytes immediately preceding the end of the supplied slice,
interpreted big-endian; accept exactly when the payload byte count equals
the declared length and the recomputed checksum equals the field, with no
condition on bytes beyond offset 8 + length existing. -/
def Chunk.parseSpec (bytes : List Nat) : Option Chunk :=
  if bytes.length < 12 then
    none
  else
    let declaredLen := u32FromBeBytes (bytes.take 4)
    match ChunkType.tryFromVec ((bytes.drop 4).take 4) with
    | none => none
    | some t =>
      let payload := (bytes.drop 8).take declaredLen
      let crcField := u32FromBeBytes (bytes.drop (bytes.length - 4))
      if payload.length = declaredLen ∧ Chunk.crc_checksum t payload = crcField then
        some (Chunk.new t payload)
      else
        none

/-! ### ChunkContainer

The container module (`png.rs`, the `Png` struct) is declared by `main.rs`
but its source file is absent from the repository, so it is modelled from
the specification (§3, §4.3). -/

/-- Modelled from the spec: the fixed 8-byte magic signature that §3 and
§4.3 require at the start of a valid byte stream (the PNG file signature,
the "fixed magic signature" of the missing `png.rs`). -/
def pngSignature : List Nat := [137, 80, 78, 71, 13, 10, 26, 10]

/-- Modelled from the spec: the ordered collection of chunks held by the
`ChunkContainer` (`Png`) of the missing `png.rs`. -/
structure ChunkContainer where
  chunks : List Chunk
deriving DecidableEq

/-- Modelled from the spec: the chunk-stream loop of `ChunkContainer::parse`
(§2, §4.3): until the bytes are exhausted, slice off one chunk — whose
extent, 12 + payload_length bytes, is determined by the 4-byte big-endian
declared length prefix — hand the slice to `Chunk::parse`, advance the
cursor by exactly that extent, and append the parsed chunk; any per-chunk
failure aborts the whole parse. -/
def parseChunks (bytes : List Nat) : Option (List Chunk) :=
  if h : bytes = [] then
    some []
  else
    let extent := 12 + u32FromBeBytes (bytes.take 4)
    match Chunk.tryFrom (bytes.take extent) with
    | none => none
    | some c =>
      match parseChunks (bytes.drop extent) with
      | none => none
      | some cs => some (c :: cs)
termination_by bytes.length
decreasing_by
  simp only [List.length_drop]
  have hb : 0 < bytes.length := List.length_pos.mpr h
  omega

/-- Modelled from the spec: `ChunkContainer::parse` (§4.3): verify that the
first 8 bytes equal the fixed magic signature, then parse the remaining
bytes chunk by chunk into the ordered collection. -/
def ChunkContainer.parse (bytes : List Nat) : Option ChunkContainer :=
  if bytes.take 8 = pngSignature then
    (parseChunks (bytes.drop 8)).map ChunkContainer.mk
  else
    none

/-- Modelled from the spec: `ChunkContainer::to_wire_bytes` (§4.3): the
fixed signature bytes concatenated with each chunk's wire bytes in
collection order. -/
def ChunkContainer.to_wire_bytes (c : ChunkContainer) : List Nat :=
  pngSignature ++ (c.chunks.map Chunk.as_bytes).flatten

/-- Validity of a chunk type value: all four raw bytes are ASCII letters.
Every `ChunkType` the Rust code can construct satisfies this, since
construction goes through the validating conversions. -/
def ChunkType.Valid (t : ChunkType) : Prop :=
  isAsciiLetter t.b0 ∧ isAsciiLetter t.b1 ∧ isAsciiLetter t.b2 ∧ isAsciiLetter t.b3

/-- Well-formedness of a chunk value, the §3 data-model invariants: a valid
type code, genuine payload bytes, payload length in 0..2 ^ 32 - 1, and the
stored checksum equal to the checksum of type bytes plus payload bytes. -/
def Chunk.WellFormed (c : Chunk) : Prop :=
  c.chunk_type.Valid ∧ (∀ b ∈ c.data, b < 256) ∧ c.data.length < 2 ^ 32 ∧
    c.crc = Chunk.crc_checksum c.chunk_type c.data

instance (t : ChunkType) : Decidable t.Valid := by
  unfold ChunkType.Valid
  infer_instance

instance (c : Chunk) : Decidable c.WellFormed := by
  unfold Chunk.WellFormed
  infer_instance

/-! ### Concrete fixtures used by the repository's tests and the spec's scenarios -/

/-- The chunk type with text `"RuSt"`, whose four ASCII bytes are 82, 117, 83, 116. -/
def rustType : ChunkType := ⟨82, 117, 83, 116⟩

/-- The ASCII bytes of the literal `"This is where your secret message will be!"`
(42 characters, all ASCII, so the character codes are the UTF-8 bytes). -/
def secretMessageBytes : List Nat :=
  "This is where your secret message will be!".data.map Char.toNat

/-- A payload of exactly 2 ^ 32 zero bytes, the smallest payload on which the
`data.len() as u32` cast in `Chunk::as_bytes` truncates. -/
def hugePayload : List Nat := List.replicate (2 ^ 32) 0

/-! ### Helper lemmas: u32 byte conversions -/

theorem u32FromBeBytes_u32ToBeBytes (n : Nat) :
    u32FromBeBytes (u32ToBeBytes n) = n % 2 ^ 32 := by
  simp only [u32ToBeBytes, u32FromBeBytes]
  omega

theorem u32ToBeBytes_length (n : Nat) : (u32ToBeBytes n).length = 4 := rfl

theorem u32ToBeBytes_lt (n : Nat) : ∀ x ∈ u32ToBeBytes n, x < 256 := by
  simp only [u32ToBeBytes, List.mem_cons, List.not_mem_nil, or_false]
  intro x hx
  rcases hx with h | h | h | h <;> omega

theorem u32FromBeBytes_lt (l : List Nat) (hb : ∀ x ∈ l, x < 256) :
    u32FromBeBytes l < 2 ^ 32 := by
  rcases l with _ | ⟨a, _ | ⟨b, _ | ⟨c, _ | ⟨d, _ | ⟨e, tl⟩⟩⟩⟩⟩ <;>
    simp only [u32FromBeBytes] <;> first
  | omega
  | · simp only [List.mem_cons, forall_eq_or_imp] at hb
      omega

theorem u32ToBeBytes_u32FromBeBytes (l : List Nat) (h4 : l.length = 4)
    (hb : ∀ x ∈ l, x < 256) : u32ToBeBytes (u32FromBeBytes l) = l := by
  rcases l with _ | ⟨a, _ | ⟨b, _ | ⟨c, _ | ⟨d, _ | ⟨e, tl⟩⟩⟩⟩⟩ <;>
    simp only [List.length] at h4 <;> try omega
  simp only [List.mem_cons, forall_eq_or_imp] at hb
  simp only [u32FromBeBytes, u32ToBeBytes, List.cons.injEq, and_true]
  refine ⟨?_, ?_, ?_, ?_⟩ <;> omega

theorem u32FromLeBytes_reverse (l : List Nat) (h4 : l.length = 4) :
    u32FromLeBytes l.reverse = u32FromBeBytes l := by
  rcases l with _ | ⟨a, _ | ⟨b, _ | ⟨c, _ | ⟨d, _ | ⟨e, tl⟩⟩⟩⟩⟩ <;>
    simp only [List.length] at h4 <;> try omega
  simp only [List.reverse, List.reverseAux]
  simp only [u32FromLeBytes, u32FromBeBytes]

/-- The checksum field that `Chunk::try_from` reads — `from_le_bytes` of the
first four bytes of the reversed slice — equals the last four bytes of the
slice read big-endian, for any slice of at least four bytes. -/
theorem u32FromLeBytes_rev_take (l : List Nat) (h : 4 ≤ l.length) :
    u32FromLeBytes (l.reverse.take 4) = u32FromBeBytes (l.drop (l.length - 4)) := by
  rw [List.take_reverse]
  exact u32FromLeBytes_reverse _ (by simp only [List.length_drop]; omega)

/-! ### Helper lemmas: CRC-32 range -/

theorem crc32BitStep_lt (c : Nat) (h : c < 2 ^ 32) : crc32BitStep c < 2 ^ 32 := by
  unfold crc32BitStep
  split
  · exact Nat.xor_lt_two_pow (by omega) (by decide)
  · omega

theorem crc32ByteStep_lt (c b : Nat) (hc : c < 2 ^ 32) (hb : b < 256) :
    crc32ByteStep c b < 2 ^ 32 := by
  have h0 : c ^^^ b < 2 ^ 32 := Nat.xor_lt_two_pow hc (by omega)
  have hr : List.range 8 = [0, 1, 2, 3, 4, 5, 6, 7] := rfl
  unfold crc32ByteStep
  rw [hr]
  simp only [List.foldl]
  exact crc32BitStep_lt _ (crc32BitStep_lt _ (crc32BitStep_lt _ (crc32BitStep_lt _
    (crc32BitStep_lt _ (crc32BitStep_lt _ (crc32BitStep_lt _ (crc32BitStep_lt _ h0)))))))

theorem crc32_foldl_lt (l : List Nat) :
    ∀ c : Nat, c < 2 ^ 32 → (∀ b ∈ l, b < 256) → l.foldl crc32ByteStep c < 2 ^ 32 := by
  induction l with
  | nil => exact fun c hc _ => hc
  | cons x xs ih =>
    intro c hc hb
    simp only [List.mem_cons, forall_eq_or_imp] at hb
    exact ih (crc32ByteStep c x) (crc32ByteStep_lt c x hc hb.1) hb.2

theorem crc32_lt (l : List Nat) (hb : ∀ b ∈ l, b < 256) : crc32 l < 2 ^ 32 := by
  unfold crc32
  exact Nat.xor_lt_two_pow (crc32_foldl_lt l _ (by decide) hb) (by decide)

theorem isAsciiLetter_lt (b : Nat) (h : isAsciiLetter b = true) : b < 256 := by
  simp only [isAsciiLetter, isAsciiLower, isAsciiUpper, Bool.or_eq_true,
    Bool.and_eq_true, decide_eq_true_eq] at h
  omega

theorem ChunkType.bytes_lt (t : ChunkType) (ht : t.Valid) :
    ∀ b ∈ t.bytes, b < 256 := by
  obtain ⟨h0, h1, h2, h3⟩ := ht
  simp only [ChunkType.bytes, List.mem_cons, List.not_mem_nil, or_false]
  intro b hb
  rcases hb with h | h | h | h <;> subst h <;> exact isAsciiLetter_lt _ (by assumption)

theorem Chunk.crc_checksum_lt (t : ChunkType) (data : List Nat) (ht : t.Valid)
    (hd : ∀ b ∈ data, b < 256) : Chunk.crc_checksum t data < 2 ^ 32 := by
  unfold Chunk.crc_checksum
  refine crc32_lt _ ?_
  intro b hb
  rcases List.mem_append.mp hb with h | h
  · exact ChunkType.bytes_lt t ht b h
  · exact hd b h

/-! ### Helper lemmas: chunk serialization round trip -/

theorem ChunkType.tryFromVec_bytes (t : ChunkType) (ht : t.Valid) :
    ChunkType.tryFromVec t.bytes = some t := by
  obtain ⟨h0, h1, h2, h3⟩ := ht
  simp only [ChunkType.bytes, ChunkType.tryFromVec, ChunkType.tryFrom4, h0, h1, h2, h3,
    Bool.and_self, if_true]

theorem Chunk.new_as_bytes (t : ChunkType) (p : List Nat) :
    (Chunk.new t p).as_bytes =
      u32ToBeBytes (p.length % 2 ^ 32) ++ t.bytes ++ p ++
        u32ToBeBytes (Chunk.crc_checksum t p) := rfl

theorem Chunk.as_bytes_length (t : ChunkType) (p : List Nat) :
    (Chunk.new t p).as_bytes.length = 12 + p.length := by
  simp only [Chunk.new_as_bytes, List.length_append, u32ToBeBytes_length, ChunkType.bytes,
    List.length_cons, List.length_nil]
  omega

/-- Parsing the wire bytes of a freshly constructed chunk recovers the chunk,
for a valid type code and a genuine byte payload shorter than 2 ^ 32. -/
theorem Chunk.tryFrom_new_as_bytes (t : ChunkType) (p : List Nat) (ht : t.Valid)
    (hp : ∀ b ∈ p, b < 256) (hl : p.length < 2 ^ 32) :
    Chunk.tryFrom ((Chunk.new t p).as_bytes) = some (Chunk.new t p) := by
  have hK : Chunk.crc_checksum t p < 2 ^ 32 := Chunk.crc_checksum_lt t p ht hp
  have hlen : (Chunk.new t p).as_bytes.length = 12 + p.length := Chunk.as_bytes_length t p
  have h12 : ¬ (Chunk.new t p).as_bytes.length < 12 := by omega
  have htake4 : (Chunk.new t p).as_bytes.take 4 = u32ToBeBytes (p.length % 2 ^ 32) := by
    rw [Chunk.new_as_bytes, List.append_assoc, List.append_assoc]
    exact List.take_left' (u32ToBeBytes_length _)
  have hlenfield : u32FromBeBytes ((Chunk.new t p).as_bytes.take 4) = p.length := by
    rw [htake4, u32FromBeBytes_u32ToBeBytes]
    omega
  have htype : ((Chunk.new t p).as_bytes.drop 4).take 4 = t.bytes := by
    rw [Chunk.new_as_bytes, List.append_assoc, List.append_assoc,
      List.drop_left' (u32ToBeBytes_length _)]
    exact List.take_left' rfl
  have hassoc8 : (Chunk.new t p).as_bytes =
      (u32ToBeBytes (p.length % 2 ^ 32) ++ t.bytes) ++
        (p ++ u32ToBeBytes (Chunk.crc_checksum t p)) := by
    rw [Chunk.new_as_bytes]
    simp only [List.append_assoc]
  have hdata : ((Chunk.new t p).as_bytes.drop 8).take p.length = p := by
    rw [hassoc8, List.drop_left'
      (show (u32ToBeBytes (p.length % 2 ^ 32) ++ t.bytes).length = 8 from rfl)]
    exact List.take_left' rfl
  have hassocL : (Chunk.new t p).as_bytes =
      (u32ToBeBytes (p.length % 2 ^ 32) ++ (t.bytes ++ p)) ++
        u32ToBeBytes (Chunk.crc_checksum t p) := by
    rw [Chunk.new_as_bytes]
    simp only [List.append_assoc]
  have hprelen : (u32ToBeBytes (p.length % 2 ^ 32) ++ (t.bytes ++ p)).length = 8 + p.length := by
    simp only [List.length_append, u32ToBeBytes_length, ChunkType.bytes, List.length_cons,
      List.length_nil]
    omega
  have hlast : (Chunk.new t p).as_bytes.drop ((Chunk.new t p).as_bytes.length - 4) =
      u32ToBeBytes (Chunk.crc_checksum t p) := by
    have hsub : (Chunk.new t p).as_bytes.length - 4 =
        (u32ToBeBytes (p.length % 2 ^ 32) ++ (t.bytes ++ p)).length := by
      rw [hlen, hprelen]
      omega
    rw [hsub, hassocL, List.drop_left]
  have hcrcfield :
      u32FromLeBytes ((Chunk.new t p).as_bytes.reverse.take 4) = Chunk.crc_checksum t p := by
    rw [u32FromLeBytes_rev_take _ (by omega), hlast, u32FromBeBytes_u32ToBeBytes]
    exact Nat.mod_eq_of_lt hK
  unfold Chunk.tryFrom
  rw [if_neg h12]
  simp only [hlenfield, htype, ChunkType.tryFromVec_bytes t ht, hdata, hcrcfield]
  simp

/-! ### Helper lemmas: the code parser against the spec description -/

theorem Chunk.tryFrom_eq_parseSpec (bytes : List Nat) :
    Chunk.tryFrom bytes = Chunk.parseSpec bytes := by
  unfold Chunk.tryFrom Chunk.parseSpec
  by_cases h : bytes.length < 12
  · rw [if_pos h, if_pos h]
  · rw [if_neg h, if_neg h, u32FromLeBytes_rev_take bytes (by omega)]

/-! ### Helper lemmas: chunk-stream parsing -/

theorem Chunk.new_eta (c : Chunk) (h : c.crc = Chunk.crc_checksum c.chunk_type c.data) :
    Chunk.new c.chunk_type c.data = c := by
  cases c with
  | mk t d r =>
    simp only at h
    simp only [Chunk.new, h]

theorem parseChunks_nil : parseChunks [] = some [] := by
  unfold parseChunks
  rfl

theorem parseChunks_cons (c : Chunk) (rest : List Nat) (hc : c.WellFormed) :
    parseChunks (c.as_bytes ++ rest) = (parseChunks rest).map (fun cs => c :: cs) := by
  obtain ⟨ht, hp, hl, hcrc⟩ := hc
  have hcnew : Chunk.new c.chunk_type c.data = c := Chunk.new_eta c hcrc
  have hlen : c.as_bytes.length = 12 + c.data.length := by
    rw [← hcnew]
    exact Chunk.as_bytes_length c.chunk_type c.data
  have hne : c.as_bytes ++ rest ≠ [] := by
    intro hcon
    have := congrArg List.length hcon
    simp only [List.length_append, hlen, List.length_nil] at this
    omega
  have htake4 : (c.as_bytes ++ rest).take 4 = u32ToBeBytes (c.data.length % 2 ^ 32) := by
    rw [List.take_append_of_le_length (by omega), ← hcnew, Chunk.new_as_bytes,
      List.append_assoc, List.append_assoc]
    exact List.take_left' (u32ToBeBytes_length _)
  have hfield : u32FromBeBytes ((c.as_bytes ++ rest).take 4) = c.data.length := by
    rw [htake4, u32FromBeBytes_u32ToBeBytes]
    omega
  have hextent : 12 + u32FromBeBytes ((c.as_bytes ++ rest).take 4) = c.as_bytes.length := by
    rw [hfield, hlen]
  have htakeE : (c.as_bytes ++ rest).take (12 + u32FromBeBytes ((c.as_bytes ++ rest).take 4)) =
      c.as_bytes := by
    rw [hextent]
    exact List.take_left _ _
  have hdropE : (c.as_bytes ++ rest).drop (12 + u32FromBeBytes ((c.as_bytes ++ rest).take 4)) =
      rest := by
    rw [hextent]
    exact List.drop_left _ _
  have htf : Chunk.tryFrom c.as_bytes = some c := by
    rw [← hcnew]
    exact Chunk.tryFrom_new_as_bytes c.chunk_type c.data ht hp hl
  rw [parseChunks]
  rw [dif_neg hne]
  simp only [htakeE, hdropE, htf]
  cases parseChunks rest <;> rfl

theorem parseChunks_flatten (cs : List Chunk) (h : ∀ c ∈ cs, c.WellFormed) :
    parseChunks ((cs.map Chunk.as_bytes).flatten) = some cs := by
  induction cs with
  | nil =>
    simpa using parseChunks_nil
  | cons c cs ih =>
    simp only [List.map_cons, List.flatten_cons]
    rw [parseChunks_cons c _ (h c (List.mem_cons_self c cs))]
    rw [ih (fun x hx => h x (List.mem_cons_of_mem c hx))]
    rfl

/-- Parsing the wire bytes of a container whose chunks satisfy the §3
invariants recovers the container exactly. -/
theorem ChunkContainer.parse_to_wire (c : ChunkContainer)
    (h : ∀ ch ∈ c.chunks, ch.WellFormed) :
    ChunkContainer.parse c.to_wire_bytes = some c := by
  unfold ChunkContainer.to_wire_bytes ChunkContainer.parse
  rw [if_pos (show (pngSignature ++ (List.map Chunk.as_bytes c.chunks).flatten).take 8 =
    pngSignature from List.take_left' rfl)]
  rw [List.drop_left' (show pngSignature.length = 8 from rfl)]
  rw [parseChunks_flatten c.chunks h]
  rfl

/-! ### Claim theorems -/

/-- C1, as frozen, fails on the code: for the concrete 2 ^ 32-byte payload
`hugePayload` and the type code `"RuSt"`, parsing the wire bytes of
`Chunk::new` cannot yield a chunk whose payload equals the original payload,
because `Chunk::as_bytes` truncates the length field with `data.len() as
u32`, so the parser reads a declared length of 0 and extracts an empty
payload. -/
theorem c1_chunk_wire_roundtrip_counterexample :
    ¬ ((Chunk.tryFrom ((Chunk.new rustType hugePayload).as_bytes)).map Chunk.data =
      some hugePayload) := by
  have hlen : hugePayload.length = 2 ^ 32 := List.length_replicate _ _
  have hwlen : (Chunk.new rustType hugePayload).as_bytes.length = 12 + 2 ^ 32 := by
    rw [Chunk.as_bytes_length, hlen]
  have h12 : ¬ (Chunk.new rustType hugePayload).as_bytes.length < 12 := by omega
  have htake4 : (Chunk.new rustType hugePayload).as_bytes.take 4 =
      u32ToBeBytes (hugePayload.length % 2 ^ 32) := by
    rw [Chunk.new_as_bytes, List.append_assoc, List.append_assoc]
    exact List.take_left' (u32ToBeBytes_length _)
  have hfield : u32FromBeBytes ((Chunk.new rustType hugePayload).as_bytes.take 4) = 0 := by
    rw [htake4, u32FromBeBytes_u32ToBeBytes, hlen]
    omega
  have htype : ((Chunk.new rustType hugePayload).as_bytes.drop 4).take 4 = rustType.bytes := by
    rw [Chunk.new_as_bytes, List.append_assoc, List.append_assoc,
      List.drop_left' (u32ToBeBytes_length _)]
    exact List.take_left' rfl
  intro hcon
  unfold Chunk.tryFrom at hcon
  rw [if_neg h12] at hcon
  simp only [hfield, htype, ChunkType.tryFromVec_bytes rustType (by decide),
    List.take_zero] at hcon
  split at hcon
  · simp only [Option.map_some'] at hcon
    have hdata := Option.some.inj hcon
    have h0 : ((Chunk.new rustType ([] : List Nat)).data).length = hugePayload.length :=
      congrArg List.length hdata
    rw [hlen] at h0
    simp [Chunk.new] at h0
  · simp at hcon

/-- C1 (amended with the bound the `as u32` cast forces): for every valid
chunk type code `t` and every payload `p` of genuine bytes with fewer than
2 ^ 32 entries, `Chunk::try_from` on `Chunk::new(t, p).as_bytes()` succeeds
and yields a chunk whose type code is `t`, whose payload is `p`, and whose
stored checksum is `Chunk::crc_checksum(t, p)`. -/
theorem c1_chunk_wire_roundtrip (t : ChunkType) (p : List Nat) (ht : t.Valid)
    (hp : ∀ b ∈ p, b < 256) (hl : p.length < 2 ^ 32) :
    Chunk.tryFrom ((Chunk.new t p).as_bytes) =
      some { chunk_type := t, data := p, crc := Chunk.crc_checksum t p } :=
  Chunk.tryFrom_new_as_bytes t p ht hp hl

theorem c1_chunk_wire_roundtrip_witness :
    rustType.Valid ∧ (∀ b ∈ ([1, 2, 3] : List Nat), b < 256) ∧
      ([1, 2, 3] : List Nat).length < 2 ^ 32 ∧
      Chunk.tryFrom ((Chunk.new rustType [1, 2, 3]).as_bytes) =
        some { chunk_type := rustType, data := [1, 2, 3],
               crc := Chunk.crc_checksum rustType [1, 2, 3] } :=
  ⟨by decide, by decide, by decide,
    c1_chunk_wire_roundtrip rustType [1, 2, 3] (by decide) (by decide) (by decide)⟩

/-- C2: the byte-slice chunk parser `Chunk::try_from` coincides, on every
input, with the parser the spec describes: fail below 12 bytes; read the
big-endian declared length and the validated type code; take exactly
`length` payload bytes from offset 8; read the checksum field as the last
four bytes of the supplied slice in big-endian; accept exactly when the
payload byte count equals the declared length and the recomputed checksum
equals the field, independent of bytes beyond offset 8 + length. -/
theorem c2_parse_matches_spec_description (bytes : List Nat) :
    Chunk.tryFrom bytes = Chunk.parseSpec bytes :=
  Chunk.tryFrom_eq_parseSpec bytes

/-- C3: round-trip law for the spec-modelled container: for a container
whose chunks satisfy the §3 data-model invariants, parsing its wire bytes
succeeds and re-serializing the result is byte-identical to those wire
bytes. -/
theorem c3_container_roundtrip (c : ChunkContainer)
    (h : ∀ ch ∈ c.chunks, ch.WellFormed) :
    (ChunkContainer.parse c.to_wire_bytes).map ChunkContainer.to_wire_bytes =
      some c.to_wire_bytes := by
  rw [ChunkContainer.parse_to_wire c h]
  rfl

theorem c3_container_roundtrip_witness :
    (∀ ch ∈ ({ chunks := [Chunk.new rustType [1]] } : ChunkContainer).chunks, ch.WellFormed) ∧
      (ChunkContainer.parse
          ({ chunks := [Chunk.new rustType [1]] } : ChunkContainer).to_wire_bytes).map
        ChunkContainer.to_wire_bytes =
        some ({ chunks := [Chunk.new rustType [1]] } : ChunkContainer).to_wire_bytes :=
  ⟨by decide, c3_container_roundtrip { chunks := [Chunk.new rustType [1]] } (by decide)⟩

theorem ChunkType.tryFromVec_bytes_eq (l : List Nat) (t : ChunkType)
    (h : ChunkType.tryFromVec l = some t) : t.bytes = l := by
  rcases l with _ | ⟨a, _ | ⟨b, _ | ⟨c, _ | ⟨d, _ | ⟨e, tl⟩⟩⟩⟩⟩ <;>
    simp only [ChunkType.tryFromVec] at h <;> try exact absurd h (by simp)
  unfold ChunkType.tryFrom4 at h
  split at h
  · cases Option.some.inj h
    rfl
  · exact absurd h (by simp)

/-- C4: every chunk the code produces — by `Chunk::new` or by reconstruction
through `Chunk::try_from` — stores as its checksum exactly the CRC-32
(ISO-HDLC) of the type-code bytes followed by the payload bytes, and
reconstruction fails whenever the checksum field supplied in the bytes
differs from the value recomputed over the extracted type code and payload. -/
theorem c4_checksum_invariant :
    (∀ t p, (Chunk.new t p).crc = Chunk.crc_checksum t p) ∧
    (∀ bytes c, Chunk.tryFrom bytes = some c →
      c.crc = Chunk.crc_checksum c.chunk_type c.data) ∧
    (∀ bytes t, ChunkType.tryFromVec ((bytes.drop 4).take 4) = some t →
      u32FromLeBytes (bytes.reverse.take 4) ≠
        Chunk.crc_checksum t ((bytes.drop 8).take (u32FromBeBytes (bytes.take 4))) →
      Chunk.tryFrom bytes = none) := by
  refine ⟨fun t p => rfl, ?_, ?_⟩
  · intro bytes c h
    unfold Chunk.tryFrom at h
    split at h
    · exact absurd h (by simp)
    · split at h
      · exact absurd h (by simp)
      · dsimp only at h
        split at h
        · cases Option.some.inj h
          rfl
        · exact absurd h (by simp)
  · intro bytes t hty hne
    unfold Chunk.tryFrom
    split
    · rfl
    · simp only [hty]
      exact if_neg (fun hco => hne hco.2.symm)

theorem c4_checksum_invariant_witness :
    (Chunk.new rustType [1]).crc =
        Chunk.crc_checksum (Chunk.new rustType [1]).chunk_type (Chunk.new rustType [1]).data ∧
      Chunk.tryFrom [0, 0, 0, 0, 82, 117, 83, 116, 0, 0, 0, 0] = none :=
  ⟨c4_checksum_invariant.2.1 ((Chunk.new rustType [1]).as_bytes) (Chunk.new rustType [1])
      (by decide),
    c4_checksum_invariant.2.2 [0, 0, 0, 0, 82, 117, 83, 116, 0, 0, 0, 0] rustType
      (by decide) (by decide)⟩

/-- C5: for every 4-byte array, `ChunkType::try_from` fails exactly when at
least one byte lies outside the ASCII letter ranges `A`-`Z` (65-90) and
`a`-`z` (97-122), and on success the constructed value's raw bytes equal the
input array. -/
theorem c5_type_code_byte_validation (a b c d : Nat) :
    (ChunkType.tryFrom4 a b c d = none ↔
      ∃ x ∈ [a, b, c, d], ¬((65 ≤ x ∧ x ≤ 90) ∨ (97 ≤ x ∧ x ≤ 122))) ∧
    (∀ t, ChunkType.tryFrom4 a b c d = some t → t.bytes = [a, b, c, d]) := by
  constructor
  · unfold ChunkType.tryFrom4
    split
    · case isTrue hc =>
      simp only [reduceCtorEq, false_iff]
      simp only [isAsciiLetter, isAsciiLower, isAsciiUpper, Bool.and_eq_true, Bool.or_eq_true,
        decide_eq_true_eq] at hc
      simp only [List.mem_cons, List.not_mem_nil, or_false, not_exists, not_and, not_not]
      intro x hx
      rcases hx with h | h | h | h <;> subst h <;> omega
    · case isFalse hc =>
      simp only [true_iff]
      simp only [isAsciiLetter, isAsciiLower, isAsciiUpper, Bool.and_eq_true, Bool.or_eq_true,
        decide_eq_true_eq] at hc
      by_cases ha : (65 ≤ a ∧ a ≤ 90) ∨ (97 ≤ a ∧ a ≤ 122)
      · by_cases hb : (65 ≤ b ∧ b ≤ 90) ∨ (97 ≤ b ∧ b ≤ 122)
        · by_cases hcc : (65 ≤ c ∧ c ≤ 90) ∨ (97 ≤ c ∧ c ≤ 122)
          · refine ⟨d, by simp, ?_⟩
            intro hd
            exact hc ⟨⟨⟨by tauto, by tauto⟩, by tauto⟩, by tauto⟩
          · exact ⟨c, by simp, hcc⟩
        · exact ⟨b, by simp, hb⟩
      · exact ⟨a, by simp, ha⟩
  · intro t h
    unfold ChunkType.tryFrom4 at h
    split at h
    · cases Option.some.inj h
      rfl
    · exact absurd h (by simp)

theorem c5_type_code_byte_validation_witness :
    rustType.bytes = [82, 117, 83, 116] :=
  (c5_type_code_byte_validation 82 117 83 116).2 rustType (by decide)

/-- C6: for every chunk type value, `is_valid` aliases
`is_reserved_bit_valid` and returns true exactly when the third of the four
bytes is an ASCII uppercase letter, independent of the other three bytes. -/
theorem c6_is_valid_reserved_bit (t : ChunkType) :
    t.is_valid = t.is_reserved_bit_valid ∧
      (t.is_valid = true ↔ 65 ≤ t.b2 ∧ t.b2 ≤ 90) := by
  refine ⟨rfl, ?_⟩
  simp [ChunkType.is_valid, ChunkType.is_reserved_bit_valid, isAsciiUpper]

/-- C7: parsing a chunk type from text fails whenever the UTF-8 encoding of
the string is not exactly 4 bytes or any of the 4 bytes is not an ASCII
letter, and succeeds exactly when the string encodes to 4 ASCII-letter
bytes. -/
theorem c7_type_code_text_parsing (s : String) :
    (ChunkType.fromStr s).isSome = true ↔
      ((s.toUTF8.toList.map UInt8.toNat).length = 4 ∧
        ∀ x ∈ s.toUTF8.toList.map UInt8.toNat,
          (65 ≤ x ∧ x ≤ 90) ∨ (97 ≤ x ∧ x ≤ 122)) := by
  unfold ChunkType.fromStr
  generalize s.toUTF8.toList.map UInt8.toNat = l
  rcases l with _ | ⟨a, _ | ⟨b, _ | ⟨c, _ | ⟨d, _ | ⟨e, tl⟩⟩⟩⟩⟩
  · simp [ChunkType.tryFromVec]
  · simp [ChunkType.tryFromVec]
  · simp [ChunkType.tryFromVec]
  · simp [ChunkType.tryFromVec]
  · simp only [ChunkType.tryFromVec]
    unfold ChunkType.tryFrom4
    split
    · case isTrue hc =>
      simp only [isAsciiLetter, isAsciiLower, isAsciiUpper, Bool.and_eq_true, Bool.or_eq_true,
        decide_eq_true_eq] at hc
      simp only [Option.isSome_some, true_iff]
      refine ⟨rfl, ?_⟩
      intro x hx
      simp only [List.mem_cons, List.not_mem_nil, or_false] at hx
      rcases hx with h | h | h | h <;> subst h <;> tauto
    · case isFalse hc =>
      simp only [isAsciiLetter, isAsciiLower, isAsciiUpper, Bool.and_eq_true, Bool.or_eq_true,
        decide_eq_true_eq] at hc
      simp only [Option.isSome_none, Bool.false_eq_true, false_iff, not_and]
      intro _ hall
      refine hc ⟨⟨⟨?_, ?_⟩, ?_⟩, ?_⟩
      · have := hall a (by simp)
        tauto
      · have := hall b (by simp)
        tauto
      · have := hall c (by simp)
        tauto
      · have := hall d (by simp)
        tauto
  · simp only [ChunkType.tryFromVec, Option.isSome_none, Bool.false_eq_true, false_iff, not_and]
    intro hl
    exact absurd hl (by simp only [List.length_cons]; omega)

/-- C8: concrete scenario — with type code text `"RuSt"` and payload the
ASCII bytes of the literal `"This is where your secret message will be!"`
(42 bytes in fact; the spec itself flags its "44-byte" description of this
fixture as a known inconsistency), the computed checksum is 2882656334 and
the big-endian 4-byte length field written by `as_bytes` encodes 42. -/
theorem c8_concrete_scenario :
    secretMessageBytes.length = 42 ∧
    Chunk.crc_checksum rustType secretMessageBytes = 2882656334 ∧
    (Chunk.new rustType secretMessageBytes).as_bytes.take 4 = u32ToBeBytes 42 := by
  refine ⟨by decide, by decide, by decide⟩

/-- C9: the byte-slice chunk parser is total and in-bounds by construction;
in particular it rejects every slice shorter than 12 bytes, payload
extraction saturates at the end of the slice (taking
`min declared (available after offset 8)` bytes), and any slice whose
declared length exceeds the bytes available after offset 8 is rejected by
the length-consistency check. -/
theorem c9_parse_totality (bytes : List Nat) :
    (bytes.length < 12 → Chunk.tryFrom bytes = none) ∧
    (12 ≤ bytes.length →
      ((bytes.drop 8).take (u32FromBeBytes (bytes.take 4))).length =
        min (u32FromBeBytes (bytes.take 4)) (bytes.length - 8)) ∧
    (12 ≤ bytes.length → bytes.length - 8 < u32FromBeBytes (bytes.take 4) →
      Chunk.tryFrom bytes = none) := by
  refine ⟨?_, ?_, ?_⟩
  · intro h
    unfold Chunk.tryFrom
    rw [if_pos h]
  · intro h
    simp [List.length_take, List.length_drop]
  · intro h hgt
    have hdl : ((bytes.drop 8).take (u32FromBeBytes (bytes.take 4))).length =
        min (u32FromBeBytes (bytes.take 4)) (bytes.length - 8) := by
      simp [List.length_take, List.length_drop]
    unfold Chunk.tryFrom
    rw [if_neg (by omega)]
    cases hty : ChunkType.tryFromVec ((bytes.drop 4).take 4) with
    | none => simp only [hty]
    | some t =>
      simp only [hty]
      exact if_neg (fun hco => by omega)

theorem c9_parse_totality_witness :
    Chunk.tryFrom [1, 2, 3] = none ∧
      Chunk.tryFrom [0, 0, 0, 99, 82, 117, 83, 116, 1, 2, 3, 4] = none :=
  ⟨(c9_parse_totality [1, 2, 3]).1 (by decide),
    (c9_parse_totality [0, 0, 0, 99, 82, 117, 83, 116, 1, 2, 3, 4]).2.2
      (by decide) (by decide)⟩

/-- C10: on any accepted byte slice whose total length is exactly 12 plus
the declared payload length — a minimal encoding with no trailing bytes —
serializing the parsed chunk with `as_bytes` reproduces the input slice
byte for byte. -/
theorem c10_parse_serialize_identity (bytes : List Nat) (c : Chunk)
    (hb : ∀ x ∈ bytes, x < 256)
    (hacc : Chunk.tryFrom bytes = some c)
    (hmin : bytes.length = 12 + u32FromBeBytes (bytes.take 4)) :
    c.as_bytes = bytes := by
  unfold Chunk.tryFrom at hacc
  split at hacc
  · exact absurd hacc (by simp)
  · case isFalse h12 =>
    split at hacc
    · exact absurd hacc (by simp)
    · rename_i t hty
      dsimp only at hacc
      split at hacc
      case isFalse => exact absurd hacc (by simp)
      case isTrue hcond =>
        cases Option.some.inj hacc
        have hlen4 : (bytes.take 4).length = 4 := by
          simp only [List.length_take]
          omega
        have hb4 : ∀ x ∈ bytes.take 4, x < 256 := fun x hx => hb x (List.take_subset _ _ hx)
        have hLlt : u32FromBeBytes (bytes.take 4) < 2 ^ 32 := u32FromBeBytes_lt _ hb4
        have htb : u32ToBeBytes (u32FromBeBytes (bytes.take 4)) = bytes.take 4 :=
          u32ToBeBytes_u32FromBeBytes _ hlen4 hb4
        have hty4 : t.bytes = (bytes.drop 4).take 4 := ChunkType.tryFromVec_bytes_eq _ t hty
        have hlast4 : (bytes.drop (bytes.length - 4)).length = 4 := by
          simp only [List.length_drop]
          omega
        have hblast : ∀ x ∈ bytes.drop (bytes.length - 4), x < 256 :=
          fun x hx => hb x (List.drop_subset _ _ hx)
        have hcrc : Chunk.crc_checksum t ((bytes.drop 8).take (u32FromBeBytes (bytes.take 4))) =
            u32FromBeBytes (bytes.drop (bytes.length - 4)) := by
          rw [hcond.2, u32FromLeBytes_rev_take bytes (by omega)]
        have htbcrc :
            u32ToBeBytes
              (Chunk.crc_checksum t ((bytes.drop 8).take (u32FromBeBytes (bytes.take 4)))) =
              bytes.drop (bytes.length - 4) := by
          rw [hcrc]
          exact u32ToBeBytes_u32FromBeBytes _ hlast4 hblast
        rw [Chunk.new_as_bytes, htbcrc, hty4]
        rw [show ((bytes.drop 8).take (u32FromBeBytes (bytes.take 4))).length % 2 ^ 32 =
          u32FromBeBytes (bytes.take 4) from by rw [hcond.1]; omega]
        rw [htb]
        have h44 : bytes.take 4 ++ (bytes.drop 4).take 4 = bytes.take 8 := by
          rw [← List.take_add]
        rw [h44]
        have h8L : bytes.take 8 ++ (bytes.drop 8).take (u32FromBeBytes (bytes.take 4)) =
            bytes.take (8 + u32FromBeBytes (bytes.take 4)) := by
          rw [← List.take_add]
        rw [h8L]
        rw [show 8 + u32FromBeBytes (bytes.take 4) = bytes.length - 4 from by omega]
        exact List.take_append_drop _ _

theorem c10_parse_serialize_identity_witness :
    (∀ x ∈ (Chunk.new rustType []).as_bytes, x < 256) ∧
      Chunk.tryFrom (Chunk.new rustType []).as_bytes = some (Chunk.new rustType []) ∧
      (Chunk.new rustType []).as_bytes.length =
        12 + u32FromBeBytes ((Chunk.new rustType []).as_bytes.take 4) ∧
      (Chunk.new rustType []).as_bytes = (Chunk.new rustType []).as_bytes :=
  ⟨by decide, by decide, by decide,
    c10_parse_serialize_identity (Chunk.new rustType []).as_bytes (Chunk.new rustType [])
      (by decide) (by decide) (by decide)⟩

end Pngme
